import Mathlib

/-!
Verification of the PageRank core of the repository (`src/pagerank.py`).

The Python functions `transition_model`, `sample_pagerank`, `iterate_pagerank`
and the helper `get_links` are embedded shallowly:

* a Python `dict` (which preserves insertion order) becomes an association
  list `List (Page × _)`; a `set` of links becomes a duplicate-free list;
* Python float arithmetic is modelled exactly by rational arithmetic `ℚ`;
* the random source consumed by `sample_pagerank` (`random.choice` /
  `random.choices`) is modelled by an explicit stream `ω : ℕ → ℕ` of draws,
  each draw selecting an element of the candidate list by its index modulo
  the list length — every draw yields some element of the candidate list,
  which is all the claims below depend on;
* the unbounded `while` loop of `iterate_pagerank` becomes a fuel-indexed
  recursion returning `Option`, `none` meaning the fuel was exhausted.
-/

abbrev Page := ℕ

/-- A corpus: insertion-ordered mapping from a page to its outbound links
(`crawl` produces a `dict` of `set`s, so keys are distinct and each link
list is duplicate-free). -/
abbrev Corpus := List (Page × List Page)

/-- A distribution / rank mapping: insertion-ordered mapping page ↦ value. -/
abbrev RankMap := List (Page × ℚ)

/-- Dictionary lookup `m[p]` with a default: the value at the first
occurrence of the key `p` (keys are unique in every dictionary built by the
program, and the default is never reached at the call sites, which all look
up keys that are present — Python would raise `KeyError` otherwise). -/
def lookupD {α : Type} (m : List (Page × α)) (p : Page) (dflt : α) : α :=
  match m with
  | [] => dflt
  | kv :: rest => if kv.1 = p then kv.2 else lookupD rest p dflt

/-- The keys of an association list, in order. -/
def keysOf {β : Type} (m : List (Page × β)) : List Page := m.map Prod.fst

/-- The sum of the values of a rank mapping / distribution. -/
def distSum (m : RankMap) : ℚ := (m.map Prod.snd).sum

/-- Well-formedness of a corpus, exactly the data-model invariant produced by
`crawl`: keys are distinct (a `dict`), each outbound set is duplicate-free
(a `set`), and every link target is itself a key of the corpus. -/
def WFCorpus (c : Corpus) : Prop :=
  (keysOf c).Nodup ∧ ∀ kv ∈ c, kv.2.Nodup ∧ ∀ x ∈ kv.2, x ∈ keysOf c

instance (c : Corpus) : Decidable (WFCorpus c) := by
  unfold WFCorpus; infer_instance

/-- `corpus[page]`: the outbound-link set of `page`. -/
def linksOf (c : Corpus) (p : Page) : List Page := lookupD c p []

/-- Embedding of `transition_model(corpus, page, damping_factor)`
(src/pagerank.py lines 51–74): if the current page has no outbound links,
every corpus page gets `1 / len(corpus)`; otherwise every page gets
`(1 - damping_factor) / len(corpus)`, plus `damping_factor / len(corpus[page])`
when it is one of the current page's outbound links. -/
def transition_model (corpus : Corpus) (page : Page) (damping_factor : ℚ) :
    RankMap :=
  if (linksOf corpus page).length = 0 then
    corpus.map (fun kv => (kv.1, (1 : ℚ) / corpus.length))
  else
    corpus.map (fun kv =>
      (kv.1, (1 - damping_factor) / corpus.length +
        if kv.1 ∈ linksOf corpus page then
          damping_factor / (linksOf corpus page).length
        else 0))

/-- Embedding of `get_links(page, corpus)` (src/pagerank.py lines 139–149):
the list of pages whose outbound links include `page`, in corpus order
(the Python loop appends `key` for each `key in corpus` with
`page in corpus[key]`). -/
def get_links (page : Page) (corpus : Corpus) : List Page :=
  match corpus with
  | [] => []
  | kv :: rest =>
    if page ∈ kv.2 then kv.1 :: get_links page rest else get_links page rest

/-- `ranks[current_page] += step`: add `x` to the value stored at key `p`
(the key is always present when this is called, so no key is ever added). -/
def updateAdd (m : RankMap) (p : Page) (x : ℚ) : RankMap :=
  m.map (fun kv => if kv.1 = p then (kv.1, kv.2 + x) else kv)

/-- `page_ranks[page] = new_page_rank`: overwrite the value at key `p`. -/
def setVal (m : RankMap) (p : Page) (x : ℚ) : RankMap :=
  m.map (fun kv => if kv.1 = p then (kv.1, x) else kv)

/-- One random draw from a candidate list: the model of `random.choice` and
of the categorical draw `random.choices(keys, weights)[0]` — the stream value
`r` selects the element at index `r % length`.  Any element of the candidate
list can be selected and nothing outside it ever is. -/
def pickFrom (l : List Page) (r : ℕ) : Page := l.getD (r % l.length) 0

/-- The sampling loop of `sample_pagerank` (src/pagerank.py lines 90–94):
`k` remaining iterations, `i` the index into the random stream, `ranks` the
tallies so far, `cur` the current page.  Each iteration adds `step` to the
current page's tally, then draws the next page from the keys of the
transition distribution for the current page. -/
def sampleLoop (corpus : Corpus) (damping_factor : ℚ) (step : ℚ)
    (ω : ℕ → ℕ) : ℕ → ℕ → RankMap → Page → RankMap
  | _, 0, ranks, _ => ranks
  | i, k + 1, ranks, cur =>
    let ranks' := updateAdd ranks cur step
    let next := pickFrom (keysOf (transition_model corpus cur damping_factor)) (ω i)
    sampleLoop corpus damping_factor step ω (i + 1) k ranks' next

/-- Embedding of `sample_pagerank(corpus, damping_factor, n)`
(src/pagerank.py lines 77–98).  `n` is an integer as in Python: the loop
`for i in range(n)` runs `n.toNat` times and `step = 1 / n` (for `n = 0`
Python raises `ZeroDivisionError` at `step = 1 / n`; in `ℚ`, `1 / 0 = 0` —
no claim below is settled at `n = 0`).  The function performs no input
validation, exactly as the source does. -/
def sample_pagerank (corpus : Corpus) (damping_factor : ℚ) (n : ℤ)
    (ω : ℕ → ℕ) : RankMap :=
  let step : ℚ := 1 / (n : ℚ)
  let start := pickFrom (keysOf corpus) (ω 0)
  sampleLoop corpus damping_factor step ω 1 n.toNat
    (corpus.map (fun kv => (kv.1, (0 : ℚ)))) start

/-- `new_page_rank` for one page (src/pagerank.py lines 115–120): the base
term `(1 - damping_factor) / len(corpus)` plus, for every page linking to
`page`, `damping_factor * page_ranks[link] / len(corpus[link])`, read from
the *current* `page_ranks`. -/
def newRank (corpus : Corpus) (damping_factor : ℚ) (ranks : RankMap)
    (page : Page) : ℚ :=
  (get_links page corpus).foldl
    (fun acc link =>
      acc + damping_factor *
        ((lookupD ranks link 0) / ((linksOf corpus link).length : ℚ)))
    ((1 - damping_factor) / corpus.length)

/-- The body of the `for page in page_ranks` loop of `iterate_pagerank`
(src/pagerank.py lines 114–132), threaded in corpus-key order over the
state `(page_ranks, difference)`.  For each page: compute the new rank from
the current (partially updated) `page_ranks`, set `difference` according to
whether this page moved by less than `0.001`, then commit the new rank in
place.  The flag is overwritten at every page, so after a full sweep it
records only the last page's test — exactly as in the source. -/
def sweep (corpus : Corpus) (damping_factor : ℚ) :
    List Page → RankMap × Bool → RankMap × Bool
  | [], st => st
  | page :: rest, (ranks, _) =>
    let nr := newRank corpus damping_factor ranks page
    let conv := decide (|lookupD ranks page 0 - nr| < 1 / 1000)
    sweep corpus damping_factor rest (setVal ranks page nr, conv)

/-- The `while not difference` loop of `iterate_pagerank` (src/pagerank.py
lines 113–132), with fuel: run a sweep; if the flag it leaves (the last
page's convergence test) is true, return the ranks, otherwise keep going. -/
def iterateLoop (corpus : Corpus) (damping_factor : ℚ) :
    ℕ → RankMap → Option RankMap
  | 0, _ => none
  | fuel + 1, ranks =>
    let st := sweep corpus damping_factor (keysOf corpus) (ranks, false)
    if st.2 then some st.1 else iterateLoop corpus damping_factor fuel st.1

/-- Embedding of `iterate_pagerank(corpus, damping_factor)`
(src/pagerank.py lines 101–136): start every page at `1 / len(corpus)` and
sweep until the flag left by a sweep is true. -/
def iterate_pagerank (corpus : Corpus) (damping_factor : ℚ) (fuel : ℕ) :
    Option RankMap :=
  iterateLoop corpus damping_factor fuel
    (corpus.map (fun kv => (kv.1, (1 : ℚ) / corpus.length)))

/-- Modelled from the spec: the double-buffered reference sweep required by
§4.3 / §9 of the design — every page's new rank is computed from the
snapshot of ranks taken at the start of the sweep, and all new values are
committed only after all are computed. -/
def sweepSnapshot (corpus : Corpus) (damping_factor : ℚ) (ranks : RankMap) :
    RankMap :=
  ranks.map (fun kv => (kv.1, newRank corpus damping_factor ranks kv.1))

-- Concrete corpora used to settle claims.

/-- Two pages: page 0 is a sink, page 1 links to page 0. -/
def exSink : Corpus := [(0, []), (1, [0])]

/-- Two pages: page 0 links to page 1, page 1 is a sink. -/
def exFwd : Corpus := [(0, [1]), (1, [])]

/-- One page, a sink. -/
def exOne : Corpus := [(0, [])]

/-!
### IEEE-754 binary64 model of the float arithmetic in `sample_pagerank`

The exact-`ℚ` embedding above erases float rounding.  The tallies the
program actually returns are binary64 values: `step = 1 / n` is the
correctly-rounded quotient and each `page_ranks[current_page] += step` is a
correctly-rounded addition (round to 53 significant bits, round to nearest,
ties to even).  The model below represents a float as a significand and a
binary exponent with value `m * 2 ^ e` and implements those two operations
with correct rounding; the exponent range is unbounded, which is faithful
at the magnitudes involved (no overflow or subnormals near 1).  The random
draw is the same oracle as above, and the key list of the transition
distribution — all the draw depends on — is the corpus key list whether the
values are floats or rationals.
-/

/-- A binary64 float value `m * 2 ^ e` (significand and exponent; after
rounding, `|m| < 2 ^ 53`). -/
structure F64 where
  m : ℤ
  e : ℤ
deriving DecidableEq, Repr

/-- The least `k` with `n / 2 ^ k < 2 ^ 53` (fuel-bounded; 4096 covers any
significand a finite chain of additions of 53-bit values can build). -/
def bitShiftN : ℕ → ℕ → ℕ
  | 0, _ => 0
  | fuel + 1, n => if n < 2 ^ 53 then 0 else 1 + bitShiftN fuel (n / 2)

/-- Round the exact value `n * 2 ^ e` (`n : ℕ`) to 53 significant bits,
round to nearest, ties to even. -/
def roundSig (n : ℕ) (e : ℤ) : F64 :=
  let k := bitShiftN 4096 n
  if k = 0 then ⟨n, e⟩
  else
    let q := n / 2 ^ k
    let r := n % 2 ^ k
    let q' := if 2 * r < 2 ^ k then q
      else if 2 ^ k < 2 * r then q + 1
      else if q % 2 = 0 then q else q + 1
    if q' = 2 ^ 53 then ⟨(2 : ℤ) ^ 52, e + k + 1⟩ else ⟨(q' : ℤ), e + k⟩

/-- Binary64 addition: align the exponents, add the significands exactly,
round the result (rounding is symmetric in the sign). -/
def f64Add (a b : F64) : F64 :=
  let e := min a.e b.e
  let s := a.m * 2 ^ (a.e - e).toNat + b.m * 2 ^ (b.e - e).toNat
  let r := roundSig s.natAbs e
  if s < 0 then ⟨-r.m, r.e⟩ else r

/-- The least `t` with `2 ^ 52 ≤ (a * 2 ^ t) / b` (fuel-bounded). -/
def divShift : ℕ → ℕ → ℕ → ℕ
  | 0, _, _ => 0
  | fuel + 1, a, b => if 2 ^ 52 ≤ a / b then 0 else 1 + divShift fuel (2 * a) b

/-- Binary64 division `a / b` of positive integers (the program's
`step = 1 / n`): scale the numerator until the quotient has 53 bits, then
round to nearest, ties to even, using the exact remainder. -/
def f64DivNat (a b : ℕ) : F64 :=
  let t := divShift 4096 a b
  let A := a * 2 ^ t
  let q := A / b
  let r := A % b
  let q' := if 2 * r < b then q
    else if b < 2 * r then q + 1
    else if q % 2 = 0 then q else q + 1
  if q' = 2 ^ 53 then ⟨(2 : ℤ) ^ 52, -(t : ℤ) + 1⟩ else ⟨(q' : ℤ), -(t : ℤ)⟩

/-- The exact rational value of a binary64 float. -/
def F64.toRat (x : F64) : ℚ :=
  if 0 ≤ x.e then (x.m : ℚ) * 2 ^ x.e.toNat else (x.m : ℚ) / 2 ^ (-x.e).toNat

/-- `ranks[current_page] += step` in binary64: the stored tally and the
increment are floats and the addition is correctly rounded. -/
def updateAddF64 (m : List (Page × F64)) (p : Page) (x : F64) :
    List (Page × F64) :=
  m.map (fun kv => if kv.1 = p then (kv.1, f64Add kv.2 x) else kv)

/-- The sampling loop of `sample_pagerank` (src/pagerank.py lines 90–94)
with binary64 tallies: identical to `sampleLoop` except that each increment
rounds.  The draw still selects among the keys of the transition
distribution, which do not depend on the value arithmetic. -/
def sampleLoopF64 (corpus : Corpus) (damping_factor : ℚ) (step : F64)
    (ω : ℕ → ℕ) : ℕ → ℕ → List (Page × F64) → Page → List (Page × F64)
  | _, 0, ranks, _ => ranks
  | i, k + 1, ranks, cur =>
    let ranks' := updateAddF64 ranks cur step
    let next := pickFrom (keysOf (transition_model corpus cur damping_factor)) (ω i)
    sampleLoopF64 corpus damping_factor step ω (i + 1) k ranks' next

/-- `sample_pagerank(corpus, damping_factor, n)` with its float arithmetic
modelled by binary64: `step = 1 / n` is the correctly-rounded quotient and
every `+=` rounds.  (Claims are settled at `n ≥ 1`, where `n.toNat` is the
Python loop count and `f64DivNat 1 n.toNat` is the float `1 / n`.) -/
def sample_pagerank_f64 (corpus : Corpus) (damping_factor : ℚ) (n : ℤ)
    (ω : ℕ → ℕ) : List (Page × F64) :=
  let step := f64DivNat 1 n.toNat
  let start := pickFrom (keysOf corpus) (ω 0)
  sampleLoopF64 corpus damping_factor step ω 1 n.toNat
    (corpus.map (fun kv => (kv.1, (⟨0, 0⟩ : F64)))) start

/-- The sum of the values of a binary64 rank mapping, read exactly. -/
def f64DistSum (m : List (Page × F64)) : ℚ :=
  (m.map (fun kv => kv.2.toRat)).sum

/-! ### Helper lemmas about the association-list operations -/

theorem distSum_cons (a : Page) (q : ℚ) (m : RankMap) :
    distSum ((a, q) :: m) = q + distSum m := by
  simp [distSum]

theorem distSum_const (b : ℚ) (c : Corpus) :
    distSum (c.map fun kv => (kv.1, b)) = c.length * b := by
  induction c with
  | nil => simp [distSum]
  | cons kv rest ih =>
    simp only [List.map_cons, distSum_cons, ih, List.length_cons]
    push_cast
    ring

theorem keysOf_map_keyfun {β γ : Type} (f : Page → γ) (c : List (Page × β)) :
    keysOf (c.map fun kv => (kv.1, f kv.1)) = keysOf c := by
  induction c with
  | nil => rfl
  | cons kv rest ih => simp only [List.map_cons, keysOf] at *; simp [ih]

theorem lookupD_map_keyfun {β γ : Type} (f : Page → γ) (dflt : γ)
    (c : List (Page × β)) (k : Page) (h : k ∈ keysOf c) :
    lookupD (c.map fun kv => (kv.1, f kv.1)) k dflt = f k := by
  induction c with
  | nil => simp [keysOf] at h
  | cons kv rest ih =>
    by_cases hk : kv.1 = k
    · simp [lookupD, hk]
    · simp only [keysOf, List.map_cons, List.mem_cons] at h
      rcases h with h | h
      · exact absurd h.symm hk
      · simp only [List.map_cons, lookupD, if_neg hk]
        exact ih h

theorem lookupD_mem {α : Type} (c : List (Page × α)) (p : Page) (dflt : α)
    (h : p ∈ keysOf c) : (p, lookupD c p dflt) ∈ c := by
  induction c with
  | nil => simp [keysOf] at h
  | cons kv rest ih =>
    by_cases hk : kv.1 = p
    · simp only [lookupD, if_pos hk, List.mem_cons]
      left
      rw [← hk]
    · simp only [keysOf, List.map_cons, List.mem_cons] at h
      rcases h with h | h
      · exact absurd h.symm hk
      · right
        rw [lookupD, if_neg hk]
        exact ih h

theorem pickFrom_mem (l : List Page) (r : ℕ) (h : l ≠ []) : pickFrom l r ∈ l := by
  have hlen : 0 < l.length := List.length_pos.mpr h
  have hr : r % l.length < l.length := Nat.mod_lt _ hlen
  rw [pickFrom, List.getD_eq_getElem l 0 hr]
  exact List.getElem_mem hr

theorem countP_nodup_subset (keys links : List Page)
    (hk : keys.Nodup) (hl : links.Nodup) (hsub : ∀ x ∈ links, x ∈ keys) :
    keys.countP (fun x => decide (x ∈ links)) = links.length := by
  rw [List.countP_eq_length_filter]
  have hperm : List.Perm (keys.filter (fun x => decide (x ∈ links))) links := by
    rw [List.perm_ext_iff_of_nodup (hk.filter _) hl]
    intro a
    simp only [List.mem_filter, decide_eq_true_eq]
    exact ⟨fun h => h.2, fun h => ⟨hsub a h, h⟩⟩
  exact hperm.length_eq

theorem distSum_indicator (links : List Page) (base extra : ℚ) (c : Corpus) :
    distSum (c.map fun kv =>
      (kv.1, base + if kv.1 ∈ links then extra else 0)) =
      c.length * base +
        ((keysOf c).countP fun x => decide (x ∈ links)) * extra := by
  induction c with
  | nil => simp [distSum, keysOf]
  | cons kv rest ih =>
    simp only [List.map_cons, distSum_cons, ih, keysOf, List.countP_cons,
      List.length_cons]
    by_cases h : kv.1 ∈ links
    · simp only [h, if_true, decide_True]
      push_cast
      ring
    · simp only [h, if_false, decide_False]
      push_cast
      ring

theorem keysOf_transition_model (c : Corpus) (p : Page) (d : ℚ) :
    keysOf (transition_model c p d) = keysOf c := by
  unfold transition_model
  by_cases h : (linksOf c p).length = 0
  · rw [if_pos h]
    exact keysOf_map_keyfun (fun _ => (1 : ℚ) / c.length) c
  · rw [if_neg h]
    exact keysOf_map_keyfun
      (fun k => (1 - d) / c.length +
        if k ∈ linksOf c p then d / (linksOf c p).length else 0) c

theorem keysOf_updateAdd (m : RankMap) (p : Page) (x : ℚ) :
    keysOf (updateAdd m p x) = keysOf m := by
  induction m with
  | nil => rfl
  | cons kv rest ih =>
    simp only [updateAdd, keysOf, List.map_cons] at ih ⊢
    by_cases h : kv.1 = p
    · rw [if_pos h]
      simp [ih]
    · rw [if_neg h]
      simp [ih]

theorem keysOf_setVal (m : RankMap) (p : Page) (x : ℚ) :
    keysOf (setVal m p x) = keysOf m := by
  induction m with
  | nil => rfl
  | cons kv rest ih =>
    simp only [setVal, keysOf, List.map_cons] at ih ⊢
    by_cases h : kv.1 = p
    · rw [if_pos h]
      simp [ih]
    · rw [if_neg h]
      simp [ih]

theorem updateAdd_of_not_mem (m : RankMap) (p : Page) (x : ℚ)
    (h : p ∉ keysOf m) : updateAdd m p x = m := by
  induction m with
  | nil => rfl
  | cons kv rest ih =>
    simp only [keysOf, List.map_cons, List.mem_cons, not_or] at h
    have hk : ¬ kv.1 = p := fun he => h.1 he.symm
    simp only [updateAdd, List.map_cons, if_neg hk] at ih ⊢
    rw [ih h.2]

theorem distSum_updateAdd (m : RankMap) (p : Page) (x : ℚ)
    (hnd : (keysOf m).Nodup) (hp : p ∈ keysOf m) :
    distSum (updateAdd m p x) = distSum m + x := by
  induction m with
  | nil => simp [keysOf] at hp
  | cons kv rest ih =>
    simp only [keysOf, List.map_cons, List.nodup_cons] at hnd
    by_cases h : kv.1 = p
    · have hrest : p ∉ keysOf rest := h ▸ hnd.1
      simp only [updateAdd, List.map_cons, if_pos h]
      rw [show (kv.1, kv.2 + x) :: List.map
            (fun kv => if kv.1 = p then (kv.1, kv.2 + x) else kv) rest =
          (kv.1, kv.2 + x) :: updateAdd rest p x from rfl,
        updateAdd_of_not_mem rest p x hrest]
      cases kv with
      | mk a q => simp [distSum_cons]; ring
    · simp only [keysOf, List.map_cons, List.mem_cons] at hp
      rcases hp with hp | hp
      · exact absurd hp.symm h
      · simp only [updateAdd, List.map_cons, if_neg h]
        have := ih hnd.2 hp
        simp only [updateAdd] at this
        cases kv with
        | mk a q => rw [distSum_cons, distSum_cons, this]; ring

theorem keysOf_ne_nil (c : Corpus) (h : c ≠ []) : keysOf c ≠ [] := by
  cases c with
  | nil => exact absurd rfl h
  | cons kv rest => simp [keysOf]

theorem keysOf_sampleLoop (c : Corpus) (d step : ℚ) (ω : ℕ → ℕ) :
    ∀ (k i : ℕ) (ranks : RankMap) (cur : Page),
      keysOf (sampleLoop c d step ω i k ranks cur) = keysOf ranks := by
  intro k
  induction k with
  | zero => intro i ranks cur; rfl
  | succ k ih =>
    intro i ranks cur
    rw [sampleLoop, ih, keysOf_updateAdd]

theorem distSum_sampleLoop (c : Corpus) (d step : ℚ) (ω : ℕ → ℕ)
    (hnd : (keysOf c).Nodup) (hne : c ≠ []) :
    ∀ (k i : ℕ) (ranks : RankMap) (cur : Page),
      keysOf ranks = keysOf c → cur ∈ keysOf c →
      distSum (sampleLoop c d step ω i k ranks cur) =
        distSum ranks + k * step := by
  intro k
  induction k with
  | zero => intro i ranks cur _ _; simp [sampleLoop]
  | succ k ih =>
    intro i ranks cur hkeys hcur
    rw [sampleLoop]
    have hkeys' : keysOf (updateAdd ranks cur step) = keysOf c := by
      rw [keysOf_updateAdd, hkeys]
    have hnext :
        pickFrom (keysOf (transition_model c cur d)) (ω i) ∈ keysOf c := by
      rw [keysOf_transition_model]
      exact pickFrom_mem _ _ (keysOf_ne_nil c hne)
    rw [ih (i + 1) _ _ hkeys' hnext,
      distSum_updateAdd ranks cur step (hkeys ▸ hnd) (hkeys ▸ hcur)]
    push_cast
    ring

theorem keysOf_sweep (c : Corpus) (d : ℚ) :
    ∀ (pages : List Page) (ranks : RankMap) (b : Bool),
      keysOf (sweep c d pages (ranks, b)).1 = keysOf ranks := by
  intro pages
  induction pages with
  | nil => intro ranks b; rfl
  | cons page rest ih =>
    intro ranks b
    rw [sweep, ih, keysOf_setVal]

theorem keysOf_iterateLoop (c : Corpus) (d : ℚ) :
    ∀ (fuel : ℕ) (ranks r : RankMap),
      iterateLoop c d fuel ranks = some r → keysOf r = keysOf ranks := by
  intro fuel
  induction fuel with
  | zero => intro ranks r h; exact absurd h (by simp [iterateLoop])
  | succ fuel ih =>
    intro ranks r h
    rw [iterateLoop] at h
    set st := sweep c d (keysOf c) (ranks, false) with hst
    by_cases hb : st.2
    · rw [if_pos hb] at h
      have hr : st.1 = r := Option.some.inj h
      have : keysOf st.1 = keysOf ranks := by
        rw [hst]
        have := keysOf_sweep c d (keysOf c) ranks false
        simpa using this
      rw [← hr]
      exact this
    · rw [if_neg hb] at h
      have h1 := ih st.1 r h
      have h2 : keysOf st.1 = keysOf ranks := by
        rw [hst]
        have := keysOf_sweep c d (keysOf c) ranks false
        simpa using this
      rw [h1, h2]

/-! ### The claims -/

/-- C4: for every non-empty corpus, page `p` that is a key of the corpus and
damping factor `d` in (0,1), `transition_model` gives every corpus page `k`:
probability `1/N` when `p` has no outbound links, and otherwise
`(1-d)/N` plus, additionally, `d/L` when `k` is among `p`'s outbound links,
where `L` is `p`'s out-degree and `N` the number of pages. -/
theorem C4_transition_model_formula (c : Corpus) (p : Page) (d : ℚ)
    (hne : c ≠ []) (hp : p ∈ keysOf c) (hd0 : 0 < d) (hd1 : d < 1)
    (k : Page) (hk : k ∈ keysOf c) :
    (linksOf c p = [] →
      lookupD (transition_model c p d) k 0 = 1 / c.length) ∧
    (linksOf c p ≠ [] →
      lookupD (transition_model c p d) k 0 =
        (1 - d) / c.length +
          if k ∈ linksOf c p then d / (linksOf c p).length else 0) := by
  constructor
  · intro h
    unfold transition_model
    rw [if_pos (show (linksOf c p).length = 0 by simp [h])]
    exact lookupD_map_keyfun (fun _ => (1 : ℚ) / c.length) 0 c k hk
  · intro h
    unfold transition_model
    rw [if_neg (by simpa using h)]
    exact lookupD_map_keyfun
      (fun x => (1 - d) / c.length +
        if x ∈ linksOf c p then d / (linksOf c p).length else 0) 0 c k hk

/-- Witness for C4 at the concrete corpus `exSink`, current page 1 (whose
only outbound link is page 0), target page 0, damping factor 1/2. -/
theorem C4_witness :
    lookupD (transition_model exSink 1 (1/2)) 0 0 =
      (1 - 1/2) / exSink.length +
        if 0 ∈ linksOf exSink 1 then (1/2 : ℚ) / (linksOf exSink 1).length
        else 0 :=
  (C4_transition_model_formula exSink 1 (1/2) (by decide) (by decide)
    (by norm_num) (by norm_num) 0 (by decide)).2 (by decide)

/-- C5: for every well-formed non-empty corpus, page that is a key of the
corpus, and damping factor, the values of the distribution returned by
`transition_model` sum to exactly 1 (rational arithmetic models the floating
sum; the stated ±1e-9 tolerance is met with zero drift). -/
theorem C5_transition_model_sums_to_one (c : Corpus) (p : Page) (d : ℚ)
    (hwf : WFCorpus c) (hne : c ≠ []) (hp : p ∈ keysOf c) :
    distSum (transition_model c p d) = 1 := by
  have hN : (c.length : ℚ) ≠ 0 := by
    have hl : c.length ≠ 0 := fun h0 => hne (List.length_eq_zero.mp h0)
    exact_mod_cast hl
  unfold transition_model
  by_cases h0 : (linksOf c p).length = 0
  · rw [if_pos h0, distSum_const]
    field_simp
  · rw [if_neg h0, distSum_indicator]
    have hmem := lookupD_mem c p [] hp
    have hlinks := hwf.2 _ hmem
    have hcount := countP_nodup_subset (keysOf c) (linksOf c p) hwf.1
      hlinks.1 hlinks.2
    rw [hcount]
    have hL : ((linksOf c p).length : ℚ) ≠ 0 := by exact_mod_cast h0
    field_simp

/-- Witness for C5 at the concrete corpus `exSink`, sink page 0. -/
theorem C5_witness : distSum (transition_model exSink 0 (17/20)) = 1 :=
  C5_transition_model_sums_to_one exSink 0 (17/20) (by decide) (by decide)
    (by decide)

/-- C8: when the current page is a sink, the distribution returned by
`transition_model` does not depend on the damping factor. -/
theorem C8_sink_ignores_damping (c : Corpus) (p : Page) (d1 d2 : ℚ)
    (h : linksOf c p = []) :
    transition_model c p d1 = transition_model c p d2 := by
  unfold transition_model
  rw [h]
  simp

/-- Witness for C8 at the concrete corpus `exOne`, sink page 0, damping
factors 1/2 and 17/20. -/
theorem C8_witness :
    transition_model exOne 0 (1/2) = transition_model exOne 0 (17/20) :=
  C8_sink_ignores_damping exOne 0 (1/2) (17/20) rfl

/-- C10: for every non-empty corpus, page `p` that is a key of the corpus
and damping factor in (0,1), `transition_model` assigns a strictly positive
probability to every page of the corpus. -/
theorem C10_transition_model_positive (c : Corpus) (p : Page) (d : ℚ)
    (hne : c ≠ []) (hp : p ∈ keysOf c) (hd0 : 0 < d) (hd1 : d < 1)
    (k : Page) (hk : k ∈ keysOf c) :
    0 < lookupD (transition_model c p d) k 0 := by
  have hN : (0 : ℚ) < c.length := by
    have hl : 0 < c.length := List.length_pos.mpr hne
    exact_mod_cast hl
  unfold transition_model
  by_cases h0 : (linksOf c p).length = 0
  · rw [if_pos h0,
      lookupD_map_keyfun (fun _ => (1 : ℚ) / c.length) 0 c k hk]
    positivity
  · rw [if_neg h0,
      lookupD_map_keyfun
        (fun x => (1 - d) / c.length +
          if x ∈ linksOf c p then d / (linksOf c p).length else 0) 0 c k hk]
    have hL : (0 : ℚ) < (linksOf c p).length := by
      exact_mod_cast Nat.pos_of_ne_zero h0
    have hbase : 0 < (1 - d) / c.length := by
      apply div_pos _ hN
      linarith
    by_cases hmem : k ∈ linksOf c p
    · rw [if_pos hmem]
      have hextra : 0 < d / (linksOf c p).length := div_pos hd0 hL
      linarith
    · rw [if_neg hmem]
      simpa using hbase

/-- Witness for C10 at the concrete corpus `exSink`, current page 1, target
page 0, damping factor 1/2. -/
theorem C10_witness : 0 < lookupD (transition_model exSink 1 (1/2)) 0 0 :=
  C10_transition_model_positive exSink 1 (1/2) (by decide) (by decide)
    (by norm_num) (by norm_num) 0 (by decide)

/-- C7 (amended): for every non-empty corpus (distinct keys), damping
factor and sample count `n ≥ 1`, the tallies returned by `sample_pagerank`
are the sum of exactly `n` increments of `1/n` and sum to exactly 1 *in
exact arithmetic*, whatever pages the random stream visits.  The original
claim's "exactly 1.0" is false of the program's binary64 arithmetic — see
the counterexample on the float model (`sample_pagerank_f64`), where ten
rounded increments of the float `1/10` sum to `(2^53 - 1) / 2^53`. -/
theorem C7_sample_pagerank_sums_to_one (c : Corpus) (d : ℚ) (n : ℤ)
    (ω : ℕ → ℕ) (hnd : (keysOf c).Nodup) (hne : c ≠ []) (hn : 1 ≤ n) :
    distSum (sample_pagerank c d n ω) = 1 := by
  have hn0 : (n : ℚ) ≠ 0 := by
    have hz : n ≠ 0 := by omega
    exact_mod_cast hz
  show distSum (sampleLoop c d (1 / (n : ℚ)) ω 1 n.toNat
      (c.map fun kv => (kv.1, (0 : ℚ))) (pickFrom (keysOf c) (ω 0))) = 1
  rw [distSum_sampleLoop c d (1 / (n : ℚ)) ω hnd hne n.toNat 1 _ _
      (keysOf_map_keyfun (fun _ => (0 : ℚ)) c)
      (pickFrom_mem _ _ (keysOf_ne_nil c hne)),
    distSum_const]
  have ht : ((n.toNat : ℕ) : ℚ) = (n : ℚ) := by
    exact_mod_cast Int.toNat_of_nonneg (by omega : (0 : ℤ) ≤ n)
  rw [ht]
  field_simp

/-- Witness for C7 at the one-page corpus `exOne` with `n = 1`. -/
theorem C7_witness :
    distSum (sample_pagerank exOne (17/20) 1 (fun _ => 0)) = 1 :=
  C7_sample_pagerank_sums_to_one exOne (17/20) 1 (fun _ => 0) (by decide)
    (by decide) (by decide)

/-- C9: the key set (here: the key list, order included) of the mapping
returned by each of `transition_model`, `sample_pagerank` and
`iterate_pagerank` (whenever the latter terminates and returns) is exactly
the key set of the corpus. -/
theorem C9_keys_preserved (c : Corpus) (p : Page) (d : ℚ) (n : ℤ)
    (ω : ℕ → ℕ) (fuel : ℕ) :
    keysOf (transition_model c p d) = keysOf c ∧
    keysOf (sample_pagerank c d n ω) = keysOf c ∧
    ∀ r, iterate_pagerank c d fuel = some r → keysOf r = keysOf c := by
  refine ⟨keysOf_transition_model c p d, ?_, ?_⟩
  · show keysOf (sampleLoop c d (1 / (n : ℚ)) ω 1 n.toNat
        (c.map fun kv => (kv.1, (0 : ℚ))) (pickFrom (keysOf c) (ω 0))) =
      keysOf c
    rw [keysOf_sampleLoop]
    exact keysOf_map_keyfun (fun _ => (0 : ℚ)) c
  · intro r h
    unfold iterate_pagerank at h
    have h1 := keysOf_iterateLoop c d fuel
      (c.map fun kv => (kv.1, (1 : ℚ) / c.length)) r h
    rw [h1]
    exact keysOf_map_keyfun (fun _ => (1 : ℚ) / c.length) c

/-- Witness for C9 at the one-page corpus `exOne`, where
`iterate_pagerank` terminates within 3 sweeps returning `[(0, 3/20)]`. -/
theorem C9_witness :
    keysOf (transition_model exOne 0 (17/20)) = keysOf exOne ∧
    keysOf (sample_pagerank exOne (17/20) 1 (fun _ => 0)) = keysOf exOne ∧
    keysOf [((0 : Page), (3 : ℚ)/20)] = keysOf exOne := by
  obtain ⟨h1, h2, h3⟩ := C9_keys_preserved exOne 0 (17/20) 1 (fun _ => 0) 3
  refine ⟨h1, h2, h3 [((0 : Page), (3 : ℚ)/20)] ?_⟩
  norm_num [iterate_pagerank, iterateLoop, sweep, newRank, get_links,
    linksOf, lookupD, setVal, keysOf, exOne, abs_sub_lt_iff,
    abs_of_nonneg, abs_of_nonpos]

/-- C1 (code bug): on the corpus `exSink` = {0: set(), 1: {0}} with damping
factor 0.85, `iterate_pagerank` returns after its second sweep — the flag
records only the last page's test, and page 1 (the last page) moved by less
than 0.001 — although page 0's value moved from 1/2 to 111/800 in that same
final sweep, a change of 289/800 ≥ 0.001.  The loop therefore does not
continue until one full sweep produces no page exceeding an epsilon change,
contradicting the claim. -/
theorem C1_bug_last_page_convergence :
    iterate_pagerank exSink (17/20) 5 = some [(0, 111/800), (1, 3/40)] ∧
    sweep exSink (17/20) (keysOf exSink)
      (exSink.map (fun kv => (kv.1, (1 : ℚ) / exSink.length)), false) =
      ([(0, 1/2), (1, 3/40)], false) ∧
    sweep exSink (17/20) (keysOf exSink) ([(0, 1/2), (1, 3/40)], false) =
      ([(0, 111/800), (1, 3/40)], true) ∧
    ¬ |lookupD [((0 : Page), (1 : ℚ)/2), (1, 3/40)] 0 0 -
        lookupD [((0 : Page), (111 : ℚ)/800), (1, 3/40)] 0 0| < 1/1000 := by
  refine ⟨?_, ?_, ?_, ?_⟩ <;>
    norm_num [iterate_pagerank, iterateLoop, sweep, newRank, get_links,
      linksOf, lookupD, setVal, keysOf, exSink, abs_sub_lt_iff,
      abs_of_nonneg, abs_of_nonpos]

/-- C2 (code bug): one sweep of `iterate_pagerank` on the corpus
`exFwd` = {0: {1}, 1: set()} starting from the uniform initialization reads
page 0's already-updated value when recomputing page 1 (in-place update),
producing 111/800 for page 1, while the double-buffered reference sweep
(`sweepSnapshot`, the discipline the spec requires) produces 1/2: the
in-place loop is not equivalent to the double-buffered reference. -/
theorem C2_bug_in_place_not_snapshot :
    exFwd.map (fun kv => (kv.1, (1 : ℚ) / exFwd.length)) =
      [(0, 1/2), (1, 1/2)] ∧
    (sweep exFwd (17/20) (keysOf exFwd)
      ([(0, (1 : ℚ)/2), (1, 1/2)], false)).1 = [(0, 3/40), (1, 111/800)] ∧
    sweepSnapshot exFwd (17/20) [(0, (1 : ℚ)/2), (1, 1/2)] =
      [(0, 3/40), (1, 1/2)] ∧
    (sweep exFwd (17/20) (keysOf exFwd)
      ([(0, (1 : ℚ)/2), (1, 1/2)], false)).1 ≠
      sweepSnapshot exFwd (17/20) [(0, (1 : ℚ)/2), (1, 1/2)] := by
  refine ⟨?_, ?_, ?_, ?_⟩ <;>
    norm_num [sweep, sweepSnapshot, newRank, get_links, linksOf, lookupD,
      setVal, keysOf, exFwd, abs_sub_lt_iff, abs_of_nonneg, abs_of_nonpos]

/-- C3 (code bug): on the corpus `exSink` = {0: set(), 1: {0}} with damping
factor 0.85, `iterate_pagerank` terminates and returns ranks summing to
171/800 = 0.21375, which is not within 1e-3 of 1.0 (the sink page's rank
mass is not redistributed, and the run stops on the last page's test). -/
theorem C3_bug_sum_far_from_one :
    iterate_pagerank exSink (17/20) 5 = some [(0, 111/800), (1, 3/40)] ∧
    distSum [((0 : Page), (111 : ℚ)/800), (1, 3/40)] = 171/800 ∧
    ¬ |(171 : ℚ)/800 - 1| < 1/1000 := by
  refine ⟨?_, ?_, ?_⟩ <;>
    norm_num [iterate_pagerank, iterateLoop, sweep, newRank, get_links,
      linksOf, lookupD, setVal, keysOf, exSink, distSum, abs_sub_lt_iff,
      abs_of_nonneg, abs_of_nonpos]

/-- C6 (code bug): `sample_pagerank` performs no input validation.  Called
with sample count `n = -1 < 1` on the one-page corpus `exOne` it does not
fail: the loop body runs zero times and the function returns the garbage
rank mapping `[(0, 0)]`, whose tallies sum to 0, not 1. -/
theorem C6_bug_no_input_validation :
    sample_pagerank exOne (17/20) (-1) (fun _ => 0) = [(0, 0)] ∧
    distSum (sample_pagerank exOne (17/20) (-1) (fun _ => 0)) = 0 := by
  constructor <;>
    norm_num [sample_pagerank, sampleLoop, keysOf, exOne, pickFrom, distSum]

set_option maxRecDepth 100000 in
/-- C7 counterexample: under the program's binary64 float arithmetic the
tallies do not sum to exactly 1.0.  On the one-page corpus `exOne` with
damping factor 0.85 and `n = 10`, the float `step = 1/10` is
`7205759403792794 * 2^-56` and the ten correctly-rounded increments
accumulate to `9007199254740991 * 2^-53 = (2^53 - 1) / 2^53`, so the
returned tallies sum to `0.9999999999999999… ≠ 1` — the original C7, as
stated, is false at this input. -/
theorem C7_counterexample_float_sum_not_one :
    sample_pagerank_f64 exOne (17/20) 10 (fun _ => 0) =
      [(0, ⟨9007199254740991, -53⟩)] ∧
    f64DistSum (sample_pagerank_f64 exOne (17/20) 10 (fun _ => 0)) ≠ 1 := by
  have h : sample_pagerank_f64 exOne (17/20) 10 (fun _ => 0) =
      [(0, ⟨9007199254740991, -53⟩)] := by decide
  refine ⟨h, ?_⟩
  rw [h]
  norm_num [f64DistSum, F64.toRat, show ((53 : ℤ)).toNat = 53 from rfl]
